import Mathlib

/-!
Verification of the raw modular bignum layer (`bignum_mod_raw`) of Mbed TLS.

The repository provides the declaration surface `library/bignum_mod_raw.h`
(import/export codec, Montgomery constant setup, and the representation
converters) together with its documentation.  The companion implementation
files (`bignum_mod_raw.c`, `bignum_core.c`, `bignum_mod.c`) are not part of
the excerpt, so the operations below are modelled from the specification and
from the contracts stated in the header, as a shallow embedding:

* limb sequences are `List Nat`, least-significant limb first, every limb
  strictly below the limb base `256 ^ ciL` (`ciL` = bytes per limb);
* byte buffers are `List Nat`, big-endian, every byte below 256;
* fallible operations return `Except MpiError`;
* the error constants `MBEDTLS_ERR_MPI_BUFFER_TOO_SMALL`,
  `MBEDTLS_ERR_MPI_BAD_INPUT_DATA` and
  `MBEDTLS_ERR_ERROR_CORRUPTION_DETECTED` become the constructors of
  `MpiError` (`BufferTooSmall`, `InvalidModulusOrValue`,
  `InternalInvariantViolated`).
-/

deriving instance DecidableEq for Except

namespace BignumModRaw

/-- Error taxonomy of the raw layer: capacity errors, input-validity errors
and invariant violations (the three mbedtls error constants used by this
module). -/
inductive MpiError where
  | BufferTooSmall
  | InvalidModulusOrValue
  | InternalInvariantViolated
  deriving DecidableEq

/-- Representation tag of a modulus descriptor. -/
inductive ModRepTag where
  | Plain
  | Montgomery
  deriving DecidableEq

/-- Modelled from the spec: the modulus descriptor `mbedtls_mpi_mod_modulus`
(its definition lives in `bignum_mod.h`, outside the excerpt).  It owns the
modulus limbs `p` (least-significant first), a representation tag, and the
Montgomery constants: `mm`, the negated word-base inverse of the modulus,
and `rr`, the limb sequence of `R^2 mod N` where `R` is the word base raised
to the limb count. -/
structure mbedtls_mpi_mod_modulus where
  p : List Nat
  repTag : ModRepTag
  mm : Nat
  rr : List Nat
  deriving DecidableEq

/-- Value of a little-endian limb sequence in base `b`. -/
def natOfLimbsLE (b : Nat) : List Nat → Nat
  | [] => 0
  | x :: xs => x + b * natOfLimbsLE b xs

/-- Fixed-width little-endian limb decomposition of `n` in base `b`. -/
def natToLimbsLE (b : Nat) : Nat → Nat → List Nat
  | 0, _ => []
  | len + 1, n => n % b :: natToLimbsLE b len (n / b)

/-- Value of a big-endian byte buffer (most significant byte first). -/
def natOfBytesBE (input : List Nat) : Nat :=
  natOfLimbsLE 256 input.reverse

/-- Fixed-width big-endian byte encoding of `n` on `len` bytes. -/
def bytesOfNatBE (len n : Nat) : List Nat :=
  (natToLimbsLE 256 len n).reverse

/-- Modelled from the spec: the word-level Montgomery reduction loop of
section 4.3 (implemented by `mbedtls_mpi_core_montmul`, outside the
excerpt).  Each of the `k` iterations computes the single-limb multiplier
`u = (T mod b) * mm mod b` that cancels the least-significant limb, adds
`u * N` to the running value and shifts down by one limb. -/
def mont_redc_loop (b N mm : Nat) : Nat → Nat → Nat
  | 0, T => T
  | k + 1, T => mont_redc_loop b N mm k ((T + (T % b * mm) % b * N) / b)

/-- Modelled from the spec: full REDC — `k` loop iterations followed by one
conditional subtraction of the modulus (decided by a constant-time select in
the real code; here by its mathematical effect). -/
def mont_redc (b N mm k T : Nat) : Nat :=
  if mont_redc_loop b N mm k T < N then mont_redc_loop b N mm k T
  else mont_redc_loop b N mm k T - N

/-- Modelled from the spec: structural validity of a modulus descriptor
(nonempty limb sequence, limbs below the base, nonzero modulus value) —
the "external representation of `m` is invalid" condition of the header. -/
def modulus_valid (ciL : Nat) (m : mbedtls_mpi_mod_modulus) : Prop :=
  m.p ≠ [] ∧ (∀ x ∈ m.p, x < 256 ^ ciL) ∧ natOfLimbsLE (256 ^ ciL) m.p ≠ 0

instance (ciL : Nat) (m : mbedtls_mpi_mod_modulus) : Decidable (modulus_valid ciL m) := by
  unfold modulus_valid
  infer_instance

/-- Modelled from the spec: the descriptor holds valid Montgomery constants —
the modulus is odd, `mm` is the negated word-base inverse of the modulus
(`N * mm ≡ -1` modulo the base), and `rr` holds `R^2 mod N` where
`R = (256 ^ ciL) ^ m.p.length` is the radix of the Montgomery form. -/
def montgomery_valid (ciL : Nat) (m : mbedtls_mpi_mod_modulus) : Prop :=
  m.p ≠ [] ∧ (∀ x ∈ m.p, x < 256 ^ ciL) ∧
  natOfLimbsLE (256 ^ ciL) m.p % 2 = 1 ∧
  m.mm < 256 ^ ciL ∧
  (natOfLimbsLE (256 ^ ciL) m.p * m.mm + 1) % 256 ^ ciL = 0 ∧
  m.rr.length = m.p.length ∧ (∀ x ∈ m.rr, x < 256 ^ ciL) ∧
  natOfLimbsLE (256 ^ ciL) m.rr = ((256 ^ ciL) ^ m.p.length) ^ 2 % natOfLimbsLE (256 ^ ciL) m.p

instance (ciL : Nat) (m : mbedtls_mpi_mod_modulus) : Decidable (montgomery_valid ciL m) := by
  unfold montgomery_valid
  infer_instance

/-- Modelled from the spec and the header contract of
`mbedtls_mpi_mod_raw_read`: import a big-endian byte buffer.  The
destination (of capacity `X_limbs` limbs) must be able to store the full
input, most-significant zero bytes included, and must be at least as wide
as the modulus; otherwise `BufferTooSmall`.  Then the descriptor must be
structurally valid and the decoded value strictly below the modulus;
otherwise `InvalidModulusOrValue`. -/
def mbedtls_mpi_mod_raw_read (ciL : Nat) (m : mbedtls_mpi_mod_modulus)
    (X_limbs : Nat) (input : List Nat) : Except MpiError (List Nat) :=
  if X_limbs * ciL < input.length ∨ X_limbs < m.p.length then
    .error .BufferTooSmall
  else if ¬ modulus_valid ciL m ∨ natOfLimbsLE (256 ^ ciL) m.p ≤ natOfBytesBE input then
    .error .InvalidModulusOrValue
  else
    .ok (natToLimbsLE (256 ^ ciL) X_limbs (natOfBytesBE input))

/-- Modelled from the spec and the header contract of
`mbedtls_mpi_mod_raw_write`: export a limb sequence to a big-endian buffer
of the requested length, zero-padding on the most-significant side.
`BufferTooSmall` when the buffer is not large enough to hold the value of
`A` (the header's condition — so a nonzero high-order byte is never
silently truncated); `InvalidModulusOrValue` when the descriptor is
structurally invalid. -/
def mbedtls_mpi_mod_raw_write (ciL : Nat) (m : mbedtls_mpi_mod_modulus)
    (A : List Nat) (output_length : Nat) : Except MpiError (List Nat) :=
  if 256 ^ output_length ≤ natOfLimbsLE (256 ^ ciL) A then
    .error .BufferTooSmall
  else if ¬ modulus_valid ciL m then
    .error .InvalidModulusOrValue
  else
    .ok (bytesOfNatBE output_length (natOfLimbsLE (256 ^ ciL) A))

/-- Maximum number of limbs of an `mbedtls_mpi` (`MBEDTLS_MPI_MAX_LIMBS`,
defined in `bignum.h`, outside the excerpt; the header of this module only
uses it through the bound `MBEDTLS_MPI_MAX_LIMBS / 2 - 2`). -/
def MBEDTLS_MPI_MAX_LIMBS : Nat := 10000

/-- Modelled from the spec and the header contract of
`mbedtls_mpi_set_montgomery_constant_unsafe`: compute `R^2 mod N` for
`R = (256 ^ ciL) ^ limbs`.  The precondition — operand non-NULL and wide
enough, nonzero limb count at most `MBEDTLS_MPI_MAX_LIMBS / 2 - 2`, odd
modulus — is trusted; any violation is a programming defect reported as
`InternalInvariantViolated` (`MBEDTLS_ERR_ERROR_CORRUPTION_DETECTED`). -/
def mbedtls_mpi_set_montgomery_constant_unsafe (ciL : Nat) (A : Option (List Nat))
    (limbs : Nat) : Except MpiError (List Nat) :=
  match A with
  | none => .error .InternalInvariantViolated
  | some a =>
    if limbs = 0 ∨ MBEDTLS_MPI_MAX_LIMBS / 2 - 2 < limbs ∨ a.length < limbs
        ∨ natOfLimbsLE (256 ^ ciL) a % 2 = 0 then
      .error .InternalInvariantViolated
    else
      .ok (natToLimbsLE (256 ^ ciL) limbs (((256 ^ ciL) ^ limbs) ^ 2 % natOfLimbsLE (256 ^ ciL) a))

/-- Modelled from the spec: Montgomery-domain multiplication (the REDC-based
multiplication `mbedtls_mpi_core_montmul`, outside the excerpt, on which the
converters are built): multiply the two operand values and apply REDC. -/
def montgomery_mul (ciL : Nat) (m : mbedtls_mpi_mod_modulus) (X Y : List Nat) : List Nat :=
  natToLimbsLE (256 ^ ciL) m.p.length
    (mont_redc (256 ^ ciL) (natOfLimbsLE (256 ^ ciL) m.p) m.mm m.p.length
      (natOfLimbsLE (256 ^ ciL) X * natOfLimbsLE (256 ^ ciL) Y))

/-- Modelled from the spec: `mbedtls_mpi_mod_raw_from_mont_rep` — in-place
REDC with an implicit multiplier of 1, recovering the canonical residue.
Requires valid Montgomery constants, otherwise `InternalInvariantViolated`. -/
def mbedtls_mpi_mod_raw_from_mont_rep (ciL : Nat) (m : mbedtls_mpi_mod_modulus)
    (X : List Nat) : Except MpiError (List Nat) :=
  if montgomery_valid ciL m then
    .ok (natToLimbsLE (256 ^ ciL) m.p.length
      (mont_redc (256 ^ ciL) (natOfLimbsLE (256 ^ ciL) m.p) m.mm m.p.length
        (natOfLimbsLE (256 ^ ciL) X)))
  else .error .InternalInvariantViolated

/-- Modelled from the spec: `mbedtls_mpi_mod_raw_to_mont_rep` — in-place
Montgomery multiplication of the canonical value by the stored `R^2 mod N`.
Requires valid Montgomery constants, otherwise `InternalInvariantViolated`. -/
def mbedtls_mpi_mod_raw_to_mont_rep (ciL : Nat) (m : mbedtls_mpi_mod_modulus)
    (X : List Nat) : Except MpiError (List Nat) :=
  if montgomery_valid ciL m then .ok (montgomery_mul ciL m X m.rr)
  else .error .InternalInvariantViolated

/-- Modelled from the spec: independent schoolbook reference multiplication
(section 8's "independent (e.g. schoolbook) reference method") — row-by-row
accumulation of the partial products of the first operand's limbs. -/
def schoolbook_product (b : Nat) : List Nat → List Nat → Nat
  | [], _ => 0
  | x :: xs, ys => x * natOfLimbsLE b ys + b * schoolbook_product b xs ys

/-- Schoolbook multiplication followed by reduction modulo the modulus. -/
def schoolbook_mul_mod (ciL : Nat) (A B : List Nat) (m : mbedtls_mpi_mod_modulus) : Nat :=
  schoolbook_product (256 ^ ciL) A B % natOfLimbsLE (256 ^ ciL) m.p

/-- Primitive limb operations counted by the constant-time instrumentation. -/
inductive PrimOp where
  | mulOp
  | addOp
  | subOp
  | cmpOp
  deriving DecidableEq

/-- Trace of limb-level primitive operations of the REDC loop: one
multiply-accumulate and one add per limb of the modulus. -/
def redc_trace_shape : Nat → List PrimOp
  | 0 => []
  | k + 1 => PrimOp.mulOp :: PrimOp.addOp :: redc_trace_shape k

/-- Modelled from the spec: the REDC loop instrumented with the sequence of
primitive limb operations it executes, threaded along the data flow. -/
def mont_redc_loop_traced (b N mm : Nat) : Nat → Nat × List PrimOp → Nat × List PrimOp
  | 0, s => s
  | k + 1, s =>
    mont_redc_loop_traced b N mm k
      ((s.1 + (s.1 % b * mm) % b * N) / b, s.2 ++ [PrimOp.mulOp, PrimOp.addOp])

/-- Modelled from the spec: instrumented full REDC.  The final conditional
subtraction always executes a subtraction and a comparison (the real code
keeps either candidate with a constant-time select), so both primitives are
emitted on every run. -/
def mont_redc_traced (b N mm k T : Nat) : Nat × List PrimOp :=
  ((if (mont_redc_loop_traced b N mm k (T, [])).1 < N
    then (mont_redc_loop_traced b N mm k (T, [])).1
    else (mont_redc_loop_traced b N mm k (T, [])).1 - N),
   (mont_redc_loop_traced b N mm k (T, [])).2 ++ [PrimOp.subOp, PrimOp.cmpOp])

/-- Primitive-operation trace of `mbedtls_mpi_mod_raw_from_mont_rep`. -/
def from_mont_trace (ciL : Nat) (m : mbedtls_mpi_mod_modulus) (X : List Nat) : List PrimOp :=
  (mont_redc_traced (256 ^ ciL) (natOfLimbsLE (256 ^ ciL) m.p) m.mm m.p.length
    (natOfLimbsLE (256 ^ ciL) X)).2

/-- Primitive-operation trace of `mbedtls_mpi_mod_raw_to_mont_rep`. -/
def to_mont_trace (ciL : Nat) (m : mbedtls_mpi_mod_modulus) (X : List Nat) : List PrimOp :=
  (mont_redc_traced (256 ^ ciL) (natOfLimbsLE (256 ^ ciL) m.p) m.mm m.p.length
    (natOfLimbsLE (256 ^ ciL) X * natOfLimbsLE (256 ^ ciL) m.rr)).2

/-- Primitive-operation trace of `montgomery_mul`. -/
def mont_mul_trace (ciL : Nat) (m : mbedtls_mpi_mod_modulus) (X Y : List Nat) : List PrimOp :=
  (mont_redc_traced (256 ^ ciL) (natOfLimbsLE (256 ^ ciL) m.p) m.mm m.p.length
    (natOfLimbsLE (256 ^ ciL) X * natOfLimbsLE (256 ^ ciL) Y)).2

/-- Concrete one-byte-limb modulus descriptor for N = 97 (plain form). -/
def mod97 : mbedtls_mpi_mod_modulus :=
  { p := [97], repTag := ModRepTag.Plain, mm := 0, rr := [] }

/-- Concrete two-limb (one byte each) modulus descriptor for N = 257. -/
def mod257 : mbedtls_mpi_mod_modulus :=
  { p := [1, 1], repTag := ModRepTag.Plain, mm := 0, rr := [] }

/-- Concrete one-limb modulus descriptor for N = 97 with 32-bit limbs
(`ciL = 4`, so `R = 2^32`) and its Montgomery constants:
`mm = -97⁻¹ mod 2^32 = 2700958815` and `rr = R^2 mod 97 = 61`. -/
def mod97m : mbedtls_mpi_mod_modulus :=
  { p := [97], repTag := ModRepTag.Montgomery, mm := 2700958815, rr := [61] }

theorem length_natToLimbsLE (b : Nat) : ∀ len n : Nat, (natToLimbsLE b len n).length = len := by
  intro len
  induction len with
  | zero => intro n; rfl
  | succ len ih =>
    intro n
    simp only [natToLimbsLE, List.length_cons, ih]

theorem natToLimbsLE_limb_lt (b : Nat) (hb : 0 < b) :
    ∀ len n : Nat, ∀ x ∈ natToLimbsLE b len n, x < b := by
  intro len
  induction len with
  | zero => intro n x hx; simp [natToLimbsLE] at hx
  | succ len ih =>
    intro n x hx
    simp only [natToLimbsLE, List.mem_cons] at hx
    rcases hx with h | h
    · subst h; exact Nat.mod_lt _ hb
    · exact ih (n / b) x h

theorem natOfLimbsLE_lt (b : Nat) (xs : List Nat) (h : ∀ x ∈ xs, x < b) :
    natOfLimbsLE b xs < b ^ xs.length := by
  induction xs with
  | nil => simp [natOfLimbsLE]
  | cons x xs ih =>
    have hx : x < b := h x (List.mem_cons_self x xs)
    have hxs := ih (fun y hy => h y (List.mem_cons_of_mem x hy))
    simp only [natOfLimbsLE, List.length_cons, pow_succ]
    have h1 : b * (natOfLimbsLE b xs + 1) ≤ b * b ^ xs.length :=
      Nat.mul_le_mul_left b (Nat.succ_le_of_lt hxs)
    rw [Nat.mul_succ] at h1
    have h2 : b * b ^ xs.length = b ^ xs.length * b := Nat.mul_comm _ _
    omega

theorem natOfLimbsLE_natToLimbsLE (b : Nat) (hb : 0 < b) (len : Nat) :
    ∀ n, n < b ^ len → natOfLimbsLE b (natToLimbsLE b len n) = n := by
  induction len with
  | zero =>
    intro n h
    rw [pow_zero] at h
    interval_cases n
    rfl
  | succ len ih =>
    intro n h
    simp only [natToLimbsLE, natOfLimbsLE]
    rw [ih (n / b) ((Nat.div_lt_iff_lt_mul hb).mpr (by rw [← pow_succ]; exact h))]
    exact Nat.mod_add_div n b

theorem natToLimbsLE_natOfLimbsLE (b : Nat) :
    ∀ xs : List Nat, (∀ x ∈ xs, x < b) → natToLimbsLE b xs.length (natOfLimbsLE b xs) = xs := by
  intro xs
  induction xs with
  | nil => intro _; rfl
  | cons x xs ih =>
    intro h
    have hx : x < b := h x (List.mem_cons_self x xs)
    have hb : 0 < b := by omega
    simp only [natOfLimbsLE, List.length_cons, natToLimbsLE]
    congr 1
    · rw [Nat.add_mul_mod_self_left, Nat.mod_eq_of_lt hx]
    · rw [Nat.add_mul_div_left _ _ hb, Nat.div_eq_of_lt hx, Nat.zero_add]
      exact ih (fun y hy => h y (List.mem_cons_of_mem x hy))

theorem natOfBytesBE_bytesOfNatBE (len n : Nat) (h : n < 256 ^ len) :
    natOfBytesBE (bytesOfNatBE len n) = n := by
  unfold natOfBytesBE bytesOfNatBE
  rw [List.reverse_reverse]
  exact natOfLimbsLE_natToLimbsLE 256 (by omega) len n h

theorem length_bytesOfNatBE (len n : Nat) : (bytesOfNatBE len n).length = len := by
  unfold bytesOfNatBE
  rw [List.length_reverse, length_natToLimbsLE]

theorem mont_redc_loop_step_dvd (b N mm T : Nat) (hmm : (N * mm + 1) % b = 0) :
    b ∣ (T + (T % b * mm) % b * N) := by
  have h1 : (T % b * mm) % b ≡ T * mm [MOD b] :=
    (Nat.mod_modEq (T % b * mm) b).trans (Nat.ModEq.mul_right mm (Nat.mod_modEq T b))
  have h2 : T + (T % b * mm) % b * N ≡ T + T * mm * N [MOD b] :=
    Nat.ModEq.add_left T (Nat.ModEq.mul_right N h1)
  have h3 : T + T * mm * N = T * (N * mm + 1) := by ring
  have h4 : N * mm + 1 ≡ 0 [MOD b] := by
    unfold Nat.ModEq
    simpa using hmm
  have h5 : T * (N * mm + 1) ≡ T * 0 [MOD b] := Nat.ModEq.mul_left T h4
  have h6 : T + (T % b * mm) % b * N ≡ 0 [MOD b] := by
    calc T + (T % b * mm) % b * N ≡ T + T * mm * N [MOD b] := h2
      _ = T * (N * mm + 1) := h3
      _ ≡ T * 0 [MOD b] := h5
      _ = 0 := by ring
  exact (Nat.modEq_zero_iff_dvd).mp h6

theorem mont_redc_loop_spec (b N mm : Nat) (hb : 0 < b) (hmm : (N * mm + 1) % b = 0) :
    ∀ k T : Nat, ∃ c, c < b ^ k ∧ mont_redc_loop b N mm k T * b ^ k = T + c * N := by
  intro k
  induction k with
  | zero =>
    intro T
    exact ⟨0, by simp [mont_redc_loop]⟩
  | succ k ih =>
    intro T
    obtain ⟨c, hc, hval⟩ := ih ((T + (T % b * mm) % b * N) / b)
    refine ⟨(T % b * mm) % b + c * b, ?_, ?_⟩
    · have hu : (T % b * mm) % b < b := Nat.mod_lt _ hb
      have hcb : (c + 1) * b ≤ b ^ k * b := Nat.mul_le_mul_right b (Nat.succ_le_of_lt hc)
      rw [Nat.succ_mul] at hcb
      rw [pow_succ]
      omega
    · have hdvd := mont_redc_loop_step_dvd b N mm T hmm
      have hexact : (T + (T % b * mm) % b * N) / b * b = T + (T % b * mm) % b * N :=
        Nat.div_mul_cancel hdvd
      calc mont_redc_loop b N mm (k + 1) T * b ^ (k + 1)
          = mont_redc_loop b N mm k ((T + (T % b * mm) % b * N) / b) * (b ^ k * b) := by
            rw [mont_redc_loop, pow_succ]
        _ = mont_redc_loop b N mm k ((T + (T % b * mm) % b * N) / b) * b ^ k * b := by ring
        _ = ((T + (T % b * mm) % b * N) / b + c * N) * b := by rw [hval]
        _ = (T + (T % b * mm) % b * N) / b * b + c * N * b := by ring
        _ = T + (T % b * mm) % b * N + c * N * b := by rw [hexact]
        _ = T + ((T % b * mm) % b + c * b) * N := by ring

theorem mont_redc_correct (b N mm k T : Nat) (hb : 0 < b) (hN : 0 < N)
    (hmm : (N * mm + 1) % b = 0) (hT : T < N * b ^ k) :
    mont_redc b N mm k T < N ∧ mont_redc b N mm k T * b ^ k % N = T % N := by
  obtain ⟨c, hc, hval⟩ := mont_redc_loop_spec b N mm hb hmm k T
  have hbk : 0 < b ^ k := Nat.pos_pow_of_pos k hb
  have hcN : c * N < b ^ k * N := Nat.mul_lt_mul_of_lt_of_le hc (Nat.le_refl N) hN
  have hlt2 : mont_redc_loop b N mm k T < 2 * N := by
    have h2 : mont_redc_loop b N mm k T * b ^ k < 2 * N * b ^ k := by
      rw [hval]
      have : N * b ^ k + b ^ k * N = 2 * N * b ^ k := by ring
      omega
    exact Nat.lt_of_mul_lt_mul_right h2
  unfold mont_redc
  by_cases hcase : mont_redc_loop b N mm k T < N
  · rw [if_pos hcase]
    refine ⟨hcase, ?_⟩
    rw [hval, Nat.add_mul_mod_self_right]
  · rw [if_neg hcase]
    push_neg at hcase
    constructor
    · omega
    · have hsub : (mont_redc_loop b N mm k T - N) * b ^ k
          = mont_redc_loop b N mm k T * b ^ k - N * b ^ k := by
        rw [Nat.sub_mul]
      have hle : N * b ^ k ≤ mont_redc_loop b N mm k T * b ^ k :=
        Nat.mul_le_mul_right _ hcase
      have hrecover : mont_redc_loop b N mm k T * b ^ k
          = (mont_redc_loop b N mm k T * b ^ k - N * b ^ k) + b ^ k * N := by
        rw [Nat.mul_comm (b ^ k) N]
        omega
      rw [hsub, ← Nat.add_mul_mod_self_right (mont_redc_loop b N mm k T * b ^ k - N * b ^ k) (b ^ k) N,
        ← hrecover, hval, Nat.add_mul_mod_self_right]

theorem schoolbook_product_eq (b : Nat) :
    ∀ xs ys : List Nat, schoolbook_product b xs ys = natOfLimbsLE b xs * natOfLimbsLE b ys := by
  intro xs ys
  induction xs with
  | nil => simp [schoolbook_product, natOfLimbsLE]
  | cons x xs ih =>
    simp only [schoolbook_product, natOfLimbsLE, ih]
    ring

theorem mont_redc_loop_traced_fst (b N mm : Nat) :
    ∀ (k : Nat) (s : Nat × List PrimOp),
      (mont_redc_loop_traced b N mm k s).1 = mont_redc_loop b N mm k s.1 := by
  intro k
  induction k with
  | zero => intro s; rfl
  | succ k ih =>
    intro s
    simp only [mont_redc_loop_traced, mont_redc_loop, ih]

theorem mont_redc_loop_traced_snd (b N mm : Nat) :
    ∀ (k : Nat) (s : Nat × List PrimOp),
      (mont_redc_loop_traced b N mm k s).2 = s.2 ++ redc_trace_shape k := by
  intro k
  induction k with
  | zero => intro s; simp [mont_redc_loop_traced, redc_trace_shape]
  | succ k ih =>
    intro s
    simp only [mont_redc_loop_traced, redc_trace_shape, ih, List.append_assoc]
    rfl

theorem mont_redc_traced_fst (b N mm k T : Nat) :
    (mont_redc_traced b N mm k T).1 = mont_redc b N mm k T := by
  unfold mont_redc_traced mont_redc
  rw [mont_redc_loop_traced_fst]

theorem mont_redc_traced_snd (b N mm k T : Nat) :
    (mont_redc_traced b N mm k T).2 = redc_trace_shape k ++ [PrimOp.subOp, PrimOp.cmpOp] := by
  unfold mont_redc_traced
  rw [mont_redc_loop_traced_snd]
  rfl

theorem coprime_base_pow (ciL k N : Nat) (hodd : N % 2 = 1) :
    Nat.Coprime ((256 ^ ciL) ^ k) N := by
  have h2 : Nat.Coprime 2 N := by
    rw [Nat.Prime.coprime_iff_not_dvd Nat.prime_two]
    omega
  have h256 : Nat.Coprime 256 N := by
    have h : (256 : Nat) = 2 ^ 8 := by norm_num
    rw [h]
    exact Nat.Coprime.pow_left 8 h2
  exact Nat.Coprime.pow_left k (Nat.Coprime.pow_left ciL h256)

theorem mont_redc_lt (b N mm k T : Nat) (hb : 0 < b) (hN : 0 < N)
    (hmm : (N * mm + 1) % b = 0) (hT : T < N * b ^ k) :
    mont_redc b N mm k T < N :=
  (mont_redc_correct b N mm k T hb hN hmm hT).1

theorem mont_redc_roundtrip (b N mm k v rrv : Nat) (hb : 0 < b) (hN : 0 < N)
    (hmm : (N * mm + 1) % b = 0) (hco : Nat.Coprime (b ^ k) N)
    (hNlt : N < b ^ k) (hv : v < N) (hrr : rrv = (b ^ k) ^ 2 % N) :
    mont_redc b N mm k (mont_redc b N mm k (v * rrv)) = v := by
  have hrrlt : rrv < N := by rw [hrr]; exact Nat.mod_lt _ hN
  have hvb : v < b ^ k := lt_trans hv hNlt
  have hT1 : v * rrv < N * b ^ k := by
    have h := Nat.mul_lt_mul_of_lt_of_le hvb (Nat.le_of_lt hrrlt) hN
    rw [Nat.mul_comm (b ^ k) N] at h
    exact h
  obtain ⟨ht_lt, ht_mod⟩ := mont_redc_correct b N mm k (v * rrv) hb hN hmm hT1
  have hNle : N ≤ N * b ^ k := by
    calc N = N * 1 := (Nat.mul_one N).symm
      _ ≤ N * b ^ k := Nat.mul_le_mul_left N (Nat.pos_pow_of_pos k hb)
  have hT2 : mont_redc b N mm k (v * rrv) < N * b ^ k := lt_of_lt_of_le ht_lt hNle
  obtain ⟨hf_lt, hf_mod⟩ := mont_redc_correct b N mm k (mont_redc b N mm k (v * rrv)) hb hN hmm hT2
  have hf_modEq : mont_redc b N mm k (mont_redc b N mm k (v * rrv)) * b ^ k
      ≡ mont_redc b N mm k (v * rrv) [MOD N] := hf_mod
  have ht_modEq : mont_redc b N mm k (v * rrv) * b ^ k ≡ v * rrv [MOD N] := ht_mod
  have h1 : mont_redc b N mm k (mont_redc b N mm k (v * rrv)) * b ^ k * b ^ k
      ≡ v * (b ^ k) ^ 2 [MOD N] := by
    calc mont_redc b N mm k (mont_redc b N mm k (v * rrv)) * b ^ k * b ^ k
        ≡ mont_redc b N mm k (v * rrv) * b ^ k [MOD N] := Nat.ModEq.mul_right _ hf_modEq
      _ ≡ v * rrv [MOD N] := ht_modEq
      _ ≡ v * ((b ^ k) ^ 2) [MOD N] := Nat.ModEq.mul_left v (by rw [hrr]; exact Nat.mod_modEq _ _)
  have h2 : mont_redc b N mm k (mont_redc b N mm k (v * rrv)) * (b ^ k) ^ 2
      ≡ v * (b ^ k) ^ 2 [MOD N] := by
    have hrw : mont_redc b N mm k (mont_redc b N mm k (v * rrv)) * b ^ k * b ^ k
        = mont_redc b N mm k (mont_redc b N mm k (v * rrv)) * (b ^ k) ^ 2 := by ring
    rwa [hrw] at h1
  have h3 := Nat.ModEq.cancel_right_of_coprime (Nat.Coprime.pow_left 2 hco).symm h2
  calc mont_redc b N mm k (mont_redc b N mm k (v * rrv))
      = mont_redc b N mm k (mont_redc b N mm k (v * rrv)) % N := (Nat.mod_eq_of_lt hf_lt).symm
    _ = v % N := h3
    _ = v := Nat.mod_eq_of_lt hv

theorem mont_redc_mul_spec (b N mm k a c rrv : Nat) (hb : 0 < b) (hN : 0 < N)
    (hmm : (N * mm + 1) % b = 0) (hco : Nat.Coprime (b ^ k) N)
    (hNlt : N < b ^ k) (ha : a < N) (hc : c < N) (hrr : rrv = (b ^ k) ^ 2 % N) :
    mont_redc b N mm k (mont_redc b N mm k
      (mont_redc b N mm k (a * rrv) * mont_redc b N mm k (c * rrv))) = a * c % N := by
  have hrrlt : rrv < N := by rw [hrr]; exact Nat.mod_lt _ hN
  have hrrModEq : rrv ≡ (b ^ k) ^ 2 [MOD N] := by rw [hrr]; exact Nat.mod_modEq _ _
  have hbound : ∀ w : Nat, w < N → w * rrv < N * b ^ k := by
    intro w hw
    have h := Nat.mul_lt_mul_of_lt_of_le (lt_trans hw hNlt) (Nat.le_of_lt hrrlt) hN
    rw [Nat.mul_comm (b ^ k) N] at h
    exact h
  obtain ⟨hx_lt, hx_mod⟩ := mont_redc_correct b N mm k (a * rrv) hb hN hmm (hbound a ha)
  obtain ⟨hy_lt, hy_mod⟩ := mont_redc_correct b N mm k (c * rrv) hb hN hmm (hbound c hc)
  have hxy : mont_redc b N mm k (a * rrv) * mont_redc b N mm k (c * rrv) < N * b ^ k := by
    have h1 : mont_redc b N mm k (a * rrv) * mont_redc b N mm k (c * rrv) < N * N :=
      Nat.mul_lt_mul_of_lt_of_le hx_lt (Nat.le_of_lt hy_lt) hN
    exact lt_of_lt_of_le h1 (Nat.mul_le_mul_left N (Nat.le_of_lt hNlt))
  obtain ⟨hz_lt, hz_mod⟩ := mont_redc_correct b N mm k
    (mont_redc b N mm k (a * rrv) * mont_redc b N mm k (c * rrv)) hb hN hmm hxy
  have hNle : N ≤ N * b ^ k := by
    calc N = N * 1 := (Nat.mul_one N).symm
      _ ≤ N * b ^ k := Nat.mul_le_mul_left N (Nat.pos_pow_of_pos k hb)
  obtain ⟨hf_lt, hf_mod⟩ := mont_redc_correct b N mm k
    (mont_redc b N mm k (mont_redc b N mm k (a * rrv) * mont_redc b N mm k (c * rrv)))
    hb hN hmm (lt_of_lt_of_le hz_lt hNle)
  have hx_modEq : mont_redc b N mm k (a * rrv) * b ^ k ≡ a * (b ^ k) ^ 2 [MOD N] :=
    Nat.ModEq.trans hx_mod (Nat.ModEq.mul_left a hrrModEq)
  have hy_modEq : mont_redc b N mm k (c * rrv) * b ^ k ≡ c * (b ^ k) ^ 2 [MOD N] :=
    Nat.ModEq.trans hy_mod (Nat.ModEq.mul_left c hrrModEq)
  have hz_modEq : mont_redc b N mm k
      (mont_redc b N mm k (a * rrv) * mont_redc b N mm k (c * rrv)) * b ^ k
      ≡ mont_redc b N mm k (a * rrv) * mont_redc b N mm k (c * rrv) [MOD N] := hz_mod
  have hf_modEq : mont_redc b N mm k
        (mont_redc b N mm k (mont_redc b N mm k (a * rrv) * mont_redc b N mm k (c * rrv)))
        * b ^ k
      ≡ mont_redc b N mm k (mont_redc b N mm k (a * rrv) * mont_redc b N mm k (c * rrv))
        [MOD N] := hf_mod
  have hstep : mont_redc b N mm k
        (mont_redc b N mm k (mont_redc b N mm k (a * rrv) * mont_redc b N mm k (c * rrv)))
        * b ^ k * b ^ k * (b ^ k * b ^ k)
      ≡ (mont_redc b N mm k (a * rrv) * b ^ k) * (mont_redc b N mm k (c * rrv) * b ^ k)
        [MOD N] := by
    calc mont_redc b N mm k
          (mont_redc b N mm k (mont_redc b N mm k (a * rrv) * mont_redc b N mm k (c * rrv)))
          * b ^ k * b ^ k * (b ^ k * b ^ k)
        ≡ mont_redc b N mm k (mont_redc b N mm k (a * rrv) * mont_redc b N mm k (c * rrv))
          * b ^ k * (b ^ k * b ^ k) [MOD N] :=
          Nat.ModEq.mul_right _ (Nat.ModEq.mul_right _ hf_modEq)
      _ ≡ mont_redc b N mm k (a * rrv) * mont_redc b N mm k (c * rrv) * (b ^ k * b ^ k)
          [MOD N] := Nat.ModEq.mul_right _ hz_modEq
      _ = (mont_redc b N mm k (a * rrv) * b ^ k) * (mont_redc b N mm k (c * rrv) * b ^ k) := by
          ring
  have hprod : (mont_redc b N mm k (a * rrv) * b ^ k) * (mont_redc b N mm k (c * rrv) * b ^ k)
      ≡ (a * (b ^ k) ^ 2) * (c * (b ^ k) ^ 2) [MOD N] := Nat.ModEq.mul hx_modEq hy_modEq
  have hmain : mont_redc b N mm k
        (mont_redc b N mm k (mont_redc b N mm k (a * rrv) * mont_redc b N mm k (c * rrv)))
        * (b ^ k) ^ 4
      ≡ (a * c) * (b ^ k) ^ 4 [MOD N] := by
    have h1 := Nat.ModEq.trans hstep hprod
    have hrw1 : mont_redc b N mm k
          (mont_redc b N mm k (mont_redc b N mm k (a * rrv) * mont_redc b N mm k (c * rrv)))
          * b ^ k * b ^ k * (b ^ k * b ^ k)
        = mont_redc b N mm k
          (mont_redc b N mm k (mont_redc b N mm k (a * rrv) * mont_redc b N mm k (c * rrv)))
          * (b ^ k) ^ 4 := by ring
    have hrw2 : (a * (b ^ k) ^ 2) * (c * (b ^ k) ^ 2) = (a * c) * (b ^ k) ^ 4 := by ring
    rwa [hrw1, hrw2] at h1
  have hcancel := Nat.ModEq.cancel_right_of_coprime (Nat.Coprime.pow_left 4 hco).symm hmain
  calc mont_redc b N mm k
        (mont_redc b N mm k (mont_redc b N mm k (a * rrv) * mont_redc b N mm k (c * rrv)))
      = mont_redc b N mm k
        (mont_redc b N mm k (mont_redc b N mm k (a * rrv) * mont_redc b N mm k (c * rrv)))
        % N := (Nat.mod_eq_of_lt hf_lt).symm
    _ = a * c % N := hcancel

theorem montgomery_valid_core (ciL : Nat) (m : mbedtls_mpi_mod_modulus)
    (hm : montgomery_valid ciL m) :
    0 < 256 ^ ciL ∧ 0 < natOfLimbsLE (256 ^ ciL) m.p ∧
    (natOfLimbsLE (256 ^ ciL) m.p * m.mm + 1) % 256 ^ ciL = 0 ∧
    Nat.Coprime ((256 ^ ciL) ^ m.p.length) (natOfLimbsLE (256 ^ ciL) m.p) ∧
    natOfLimbsLE (256 ^ ciL) m.p < (256 ^ ciL) ^ m.p.length ∧
    natOfLimbsLE (256 ^ ciL) m.rr
      = ((256 ^ ciL) ^ m.p.length) ^ 2 % natOfLimbsLE (256 ^ ciL) m.p := by
  obtain ⟨hne, hplt, hodd, hmmlt, hmmeq, hrrlen, hrrlt, hrrval⟩ := hm
  exact ⟨Nat.pos_pow_of_pos _ (by norm_num), by omega, hmmeq,
    coprime_base_pow _ _ _ hodd, natOfLimbsLE_lt _ _ hplt, hrrval⟩

theorem natOfLimbsLE_montgomery_mul (ciL : Nat) (m : mbedtls_mpi_mod_modulus) (X Y : List Nat)
    (hlt : mont_redc (256 ^ ciL) (natOfLimbsLE (256 ^ ciL) m.p) m.mm m.p.length
        (natOfLimbsLE (256 ^ ciL) X * natOfLimbsLE (256 ^ ciL) Y)
      < (256 ^ ciL) ^ m.p.length) :
    natOfLimbsLE (256 ^ ciL) (montgomery_mul ciL m X Y)
      = mont_redc (256 ^ ciL) (natOfLimbsLE (256 ^ ciL) m.p) m.mm m.p.length
          (natOfLimbsLE (256 ^ ciL) X * natOfLimbsLE (256 ^ ciL) Y) := by
  unfold montgomery_mul
  exact natOfLimbsLE_natToLimbsLE _ (Nat.pos_pow_of_pos _ (by norm_num)) _ _ hlt

/-- C1: for every odd modulus with valid Montgomery constants and every
canonical value `v < N` held in a limb sequence of the modulus's width,
converting to Montgomery representation and back in place
(`mbedtls_mpi_mod_raw_to_mont_rep` then `mbedtls_mpi_mod_raw_from_mont_rep`)
yields the original limb sequence again. -/
theorem mont_rep_roundtrip (ciL : Nat) (m : mbedtls_mpi_mod_modulus) (X : List Nat)
    (hm : montgomery_valid ciL m) (hlen : X.length = m.p.length)
    (hX : ∀ x ∈ X, x < 256 ^ ciL)
    (hlt : natOfLimbsLE (256 ^ ciL) X < natOfLimbsLE (256 ^ ciL) m.p) :
    mbedtls_mpi_mod_raw_to_mont_rep ciL m X = Except.ok (montgomery_mul ciL m X m.rr) ∧
    mbedtls_mpi_mod_raw_from_mont_rep ciL m (montgomery_mul ciL m X m.rr) = Except.ok X := by
  obtain ⟨hb, hN, hmmeq, hco, hNlt, hrrval⟩ := montgomery_valid_core ciL m hm
  constructor
  · unfold mbedtls_mpi_mod_raw_to_mont_rep
    rw [if_pos hm]
  · unfold mbedtls_mpi_mod_raw_from_mont_rep
    rw [if_pos hm]
    have hrrltN : natOfLimbsLE (256 ^ ciL) m.rr < natOfLimbsLE (256 ^ ciL) m.p := by
      rw [hrrval]; exact Nat.mod_lt _ hN
    have hvb : natOfLimbsLE (256 ^ ciL) X < (256 ^ ciL) ^ m.p.length := lt_trans hlt hNlt
    have hT1 : natOfLimbsLE (256 ^ ciL) X * natOfLimbsLE (256 ^ ciL) m.rr
        < natOfLimbsLE (256 ^ ciL) m.p * (256 ^ ciL) ^ m.p.length := by
      have h := Nat.mul_lt_mul_of_lt_of_le hvb (Nat.le_of_lt hrrltN) hN
      rw [Nat.mul_comm ((256 ^ ciL) ^ m.p.length) (natOfLimbsLE (256 ^ ciL) m.p)] at h
      exact h
    have ht_lt := mont_redc_lt _ _ m.mm _ _ hb hN hmmeq hT1
    rw [natOfLimbsLE_montgomery_mul ciL m X m.rr (lt_trans ht_lt hNlt)]
    rw [mont_redc_roundtrip (256 ^ ciL) (natOfLimbsLE (256 ^ ciL) m.p) m.mm m.p.length
      (natOfLimbsLE (256 ^ ciL) X) (natOfLimbsLE (256 ^ ciL) m.rr) hb hN hmmeq hco hNlt hlt hrrval]
    rw [← hlen, natToLimbsLE_natOfLimbsLE _ X hX]

/-- Witness for C1 at `ciL = 4` (32-bit limbs, so `R = 2^32`), N = 97,
v = 23: `to_mont_rep` yields `23 * 2^32 mod 97` (= 29) and `from_mont_rep`
of that result recovers 23. -/
theorem mont_rep_roundtrip_witness :
    montgomery_valid 4 mod97m ∧
    mbedtls_mpi_mod_raw_to_mont_rep 4 mod97m [23] = Except.ok [23 * 4294967296 % 97] ∧
    mbedtls_mpi_mod_raw_from_mont_rep 4 mod97m (montgomery_mul 4 mod97m [23] mod97m.rr)
      = Except.ok [23] :=
  ⟨by decide, by decide,
   (mont_rep_roundtrip 4 mod97m [23] (by decide) (by decide) (by decide) (by decide)).2⟩

/-- C5: multiplication in the Montgomery domain — `to_mont(a)` and
`to_mont(b)` multiplied with `montgomery_mul` and brought back by
`from_mont_rep` agree with `(a * b) mod N` as computed by the independent
schoolbook reference. -/
theorem mont_mul_matches_schoolbook (ciL : Nat) (m : mbedtls_mpi_mod_modulus)
    (A B : List Nat) (hm : montgomery_valid ciL m)
    (hA : natOfLimbsLE (256 ^ ciL) A < natOfLimbsLE (256 ^ ciL) m.p)
    (hB : natOfLimbsLE (256 ^ ciL) B < natOfLimbsLE (256 ^ ciL) m.p) :
    mbedtls_mpi_mod_raw_to_mont_rep ciL m A = Except.ok (montgomery_mul ciL m A m.rr) ∧
    mbedtls_mpi_mod_raw_to_mont_rep ciL m B = Except.ok (montgomery_mul ciL m B m.rr) ∧
    mbedtls_mpi_mod_raw_from_mont_rep ciL m
        (montgomery_mul ciL m (montgomery_mul ciL m A m.rr) (montgomery_mul ciL m B m.rr))
      = Except.ok (natToLimbsLE (256 ^ ciL) m.p.length (schoolbook_mul_mod ciL A B m)) := by
  obtain ⟨hb, hN, hmmeq, hco, hNlt, hrrval⟩ := montgomery_valid_core ciL m hm
  have hrrltN : natOfLimbsLE (256 ^ ciL) m.rr < natOfLimbsLE (256 ^ ciL) m.p := by
    rw [hrrval]; exact Nat.mod_lt _ hN
  have hbound : ∀ w : Nat, w < natOfLimbsLE (256 ^ ciL) m.p →
      w * natOfLimbsLE (256 ^ ciL) m.rr
        < natOfLimbsLE (256 ^ ciL) m.p * (256 ^ ciL) ^ m.p.length := by
    intro w hw
    have h := Nat.mul_lt_mul_of_lt_of_le (lt_trans hw hNlt) (Nat.le_of_lt hrrltN) hN
    rw [Nat.mul_comm ((256 ^ ciL) ^ m.p.length) (natOfLimbsLE (256 ^ ciL) m.p)] at h
    exact h
  have hx_lt := mont_redc_lt _ _ m.mm _ _ hb hN hmmeq (hbound _ hA)
  have hy_lt := mont_redc_lt _ _ m.mm _ _ hb hN hmmeq (hbound _ hB)
  have hdecA := natOfLimbsLE_montgomery_mul ciL m A m.rr (lt_trans hx_lt hNlt)
  have hdecB := natOfLimbsLE_montgomery_mul ciL m B m.rr (lt_trans hy_lt hNlt)
  refine ⟨?_, ?_, ?_⟩
  · unfold mbedtls_mpi_mod_raw_to_mont_rep
    rw [if_pos hm]
  · unfold mbedtls_mpi_mod_raw_to_mont_rep
    rw [if_pos hm]
  · unfold mbedtls_mpi_mod_raw_from_mont_rep
    rw [if_pos hm]
    have hxy_lt : natOfLimbsLE (256 ^ ciL) (montgomery_mul ciL m A m.rr)
        * natOfLimbsLE (256 ^ ciL) (montgomery_mul ciL m B m.rr)
        < natOfLimbsLE (256 ^ ciL) m.p * (256 ^ ciL) ^ m.p.length := by
      rw [hdecA, hdecB]
      have h1 := Nat.mul_lt_mul_of_lt_of_le hx_lt (Nat.le_of_lt hy_lt) hN
      exact lt_of_lt_of_le h1 (Nat.mul_le_mul_left _ (Nat.le_of_lt hNlt))
    have hz_lt := mont_redc_lt _ _ m.mm _ _ hb hN hmmeq hxy_lt
    rw [natOfLimbsLE_montgomery_mul ciL m (montgomery_mul ciL m A m.rr)
      (montgomery_mul ciL m B m.rr) (lt_trans hz_lt hNlt)]
    rw [hdecA, hdecB]
    rw [mont_redc_mul_spec (256 ^ ciL) (natOfLimbsLE (256 ^ ciL) m.p) m.mm m.p.length
      (natOfLimbsLE (256 ^ ciL) A) (natOfLimbsLE (256 ^ ciL) B) (natOfLimbsLE (256 ^ ciL) m.rr)
      hb hN hmmeq hco hNlt hA hB hrrval]
    unfold schoolbook_mul_mod
    rw [schoolbook_product_eq]

/-- Witness for C5 at `ciL = 4`, N = 97, a = 5, b = 7: the Montgomery
pipeline produces `5 * 7 mod 97 = 35`, matching the schoolbook reference. -/
theorem mont_mul_matches_schoolbook_witness :
    (montgomery_valid 4 mod97m ∧ schoolbook_mul_mod 4 [5] [7] mod97m = 35) ∧
    mbedtls_mpi_mod_raw_from_mont_rep 4 mod97m
        (montgomery_mul 4 mod97m (montgomery_mul 4 mod97m [5] mod97m.rr)
          (montgomery_mul 4 mod97m [7] mod97m.rr))
      = Except.ok (natToLimbsLE (256 ^ 4) mod97m.p.length (schoolbook_mul_mod 4 [5] [7] mod97m)) :=
  ⟨⟨by decide, by decide⟩,
   (mont_mul_matches_schoolbook 4 mod97m [5] [7] (by decide) (by decide) (by decide)).2.2⟩

/-- C2: importing the fixed-width big-endian byte encoding of a value
`v < N` with `mbedtls_mpi_mod_raw_read` and re-exporting with
`mbedtls_mpi_mod_raw_write` at the same width reproduces the original
encoding (import zero-extends on the most-significant side, export
zero-pads the most-significant bytes). -/
theorem read_write_roundtrip (ciL : Nat) (m : mbedtls_mpi_mod_modulus) (v : Nat)
    (_hciL : 0 < ciL) (hm : modulus_valid ciL m)
    (hv : v < natOfLimbsLE (256 ^ ciL) m.p) :
    mbedtls_mpi_mod_raw_read ciL m m.p.length (bytesOfNatBE (m.p.length * ciL) v)
      = Except.ok (natToLimbsLE (256 ^ ciL) m.p.length v) ∧
    mbedtls_mpi_mod_raw_write ciL m (natToLimbsLE (256 ^ ciL) m.p.length v) (m.p.length * ciL)
      = Except.ok (bytesOfNatBE (m.p.length * ciL) v) := by
  have hb : 0 < 256 ^ ciL := Nat.pos_pow_of_pos _ (by norm_num)
  have hmv := hm
  obtain ⟨hne, hplt, hnz⟩ := hmv
  have hpow : (256 ^ ciL) ^ m.p.length = 256 ^ (m.p.length * ciL) := by
    rw [← pow_mul, Nat.mul_comm]
  have hNpow : natOfLimbsLE (256 ^ ciL) m.p < 256 ^ (m.p.length * ciL) := by
    rw [← hpow]; exact natOfLimbsLE_lt _ _ hplt
  have hv256 : v < 256 ^ (m.p.length * ciL) := lt_trans hv hNpow
  have hvbk : v < (256 ^ ciL) ^ m.p.length := by rw [hpow]; exact hv256
  have hdecode : natOfBytesBE (bytesOfNatBE (m.p.length * ciL) v) = v :=
    natOfBytesBE_bytesOfNatBE _ _ hv256
  have hval : natOfLimbsLE (256 ^ ciL) (natToLimbsLE (256 ^ ciL) m.p.length v) = v :=
    natOfLimbsLE_natToLimbsLE _ hb _ _ hvbk
  constructor
  · unfold mbedtls_mpi_mod_raw_read
    rw [if_neg (by rw [length_bytesOfNatBE]; omega),
      if_neg (by rw [hdecode]; push_neg; exact ⟨hm, hv⟩), hdecode]
  · unfold mbedtls_mpi_mod_raw_write
    rw [hval, if_neg (Nat.not_le.mpr hv256), if_neg (not_not_intro hm)]

/-- Witness for C2 at `ciL = 1`, N = 97, v = 23: importing the single byte
`0x17` gives limb 23 and exporting it into one byte reproduces `0x17`. -/
theorem read_write_roundtrip_witness :
    (modulus_valid 1 mod97 ∧ 23 < natOfLimbsLE (256 ^ 1) mod97.p
      ∧ bytesOfNatBE (mod97.p.length * 1) 23 = [23]) ∧
    mbedtls_mpi_mod_raw_read 1 mod97 mod97.p.length (bytesOfNatBE (mod97.p.length * 1) 23)
      = Except.ok (natToLimbsLE (256 ^ 1) mod97.p.length 23) ∧
    mbedtls_mpi_mod_raw_write 1 mod97 (natToLimbsLE (256 ^ 1) mod97.p.length 23)
        (mod97.p.length * 1)
      = Except.ok (bytesOfNatBE (mod97.p.length * 1) 23) :=
  ⟨⟨by decide, by decide, by decide⟩,
   (read_write_roundtrip 1 mod97 23 (by decide) (by decide) (by decide)).1,
   (read_write_roundtrip 1 mod97 23 (by decide) (by decide) (by decide)).2⟩

/-- C3 (amended): for every input byte buffer whose length is within the
modulus's byte capacity, importing into a destination of the modulus's
width fails with `InvalidModulusOrValue` iff the decoded value is not
strictly below the modulus or the descriptor is structurally invalid. -/
theorem read_invalid_value_iff (ciL : Nat) (m : mbedtls_mpi_mod_modulus) (input : List Nat)
    (hlen : input.length ≤ m.p.length * ciL) :
    mbedtls_mpi_mod_raw_read ciL m m.p.length input
        = Except.error MpiError.InvalidModulusOrValue
      ↔ (¬ modulus_valid ciL m ∨ natOfLimbsLE (256 ^ ciL) m.p ≤ natOfBytesBE input) := by
  unfold mbedtls_mpi_mod_raw_read
  rw [if_neg (by omega)]
  by_cases hcond : ¬ modulus_valid ciL m ∨ natOfLimbsLE (256 ^ ciL) m.p ≤ natOfBytesBE input
  · rw [if_pos hcond]
    simp [hcond]
  · rw [if_neg hcond]
    simp [hcond]

/-- Witness for C3's amended statement: importing the one-byte buffer that
encodes exactly N = 97 (not less) fails with `InvalidModulusOrValue`. -/
theorem read_invalid_value_iff_witness :
    ([(97 : Nat)].length ≤ mod97.p.length * 1 ∧ natOfBytesBE [97] = 97) ∧
    mbedtls_mpi_mod_raw_read 1 mod97 mod97.p.length [97]
      = Except.error MpiError.InvalidModulusOrValue :=
  ⟨⟨by decide, by decide⟩,
   (read_invalid_value_iff 1 mod97 [97] (by decide)).mpr (Or.inr (by decide))⟩

/-- C3 counterexample: the two-byte input `[1, 0]` decodes to 256 ≥ 97, so
the claim as stated demands `InvalidModulusOrValue`, but the import fails
with `BufferTooSmall` — the input does not fit the one-limb destination
(the header: the MPI needs enough limbs to store the full value, most
significant zero bytes of the input included). -/
theorem read_invalid_value_cex :
    modulus_valid 1 mod97 ∧
    natOfLimbsLE (256 ^ 1) mod97.p ≤ natOfBytesBE [1, 0] ∧
    mbedtls_mpi_mod_raw_read 1 mod97 mod97.p.length [1, 0]
      = Except.error MpiError.BufferTooSmall := by
  decide

/-- C4: an import whose destination limb sequence cannot hold the modulus's
width fails with `BufferTooSmall`, whatever the input buffer holds. -/
theorem read_dest_too_small (ciL : Nat) (m : mbedtls_mpi_mod_modulus)
    (X_limbs : Nat) (input : List Nat) (h : X_limbs < m.p.length) :
    mbedtls_mpi_mod_raw_read ciL m X_limbs input = Except.error MpiError.BufferTooSmall := by
  unfold mbedtls_mpi_mod_raw_read
  rw [if_pos (Or.inr h)]

/-- Witness for C4: a destination one limb short of the two-limb modulus
N = 257 fails with `BufferTooSmall`. -/
theorem read_dest_too_small_witness :
    mod257.p.length - 1 < mod257.p.length ∧
    mbedtls_mpi_mod_raw_read 1 mod257 (mod257.p.length - 1) []
      = Except.error MpiError.BufferTooSmall :=
  ⟨by decide, read_dest_too_small 1 mod257 (mod257.p.length - 1) [] (by decide)⟩

/-- C6: the Montgomery constant computation reports the fatal
`InternalInvariantViolated` (`MBEDTLS_ERR_ERROR_CORRUPTION_DETECTED`)
exactly on precondition violations — NULL operand, zero limb count, limb
count above `MBEDTLS_MPI_MAX_LIMBS / 2 - 2`, operand narrower than `limbs`,
or even modulus — and no other error. -/
theorem montgomery_constant_precondition (ciL limbs : Nat) (A : Option (List Nat)) :
    mbedtls_mpi_set_montgomery_constant_unsafe ciL A limbs
        = Except.error MpiError.InternalInvariantViolated
      ↔ (A = none ∨ ∃ a, A = some a ∧
          (limbs = 0 ∨ MBEDTLS_MPI_MAX_LIMBS / 2 - 2 < limbs ∨ a.length < limbs
            ∨ natOfLimbsLE (256 ^ ciL) a % 2 = 0)) := by
  cases A with
  | none => simp [ mbedtls_mpi_set_montgomery_constant_unsafe]
  | some a =>
    simp only [ mbedtls_mpi_set_montgomery_constant_unsafe]
    by_cases hcond : limbs = 0 ∨ MBEDTLS_MPI_MAX_LIMBS / 2 - 2 < limbs ∨ a.length < limbs
        ∨ natOfLimbsLE (256 ^ ciL) a % 2 = 0
    · rw [if_pos hcond]
      simp [hcond]
    · rw [if_neg hcond]
      simp [hcond]

/-- C7 (amended): export fails with `BufferTooSmall` exactly when the
output buffer cannot hold the value of `A` (the header's condition), and a
successful export never truncates — the output decodes back to the exact
value; a 0-byte buffer fails for any nonzero value. -/
theorem write_buffer_too_small_iff (ciL : Nat) (m : mbedtls_mpi_mod_modulus)
    (A : List Nat) (output_length : Nat) (hm : modulus_valid ciL m) :
    (mbedtls_mpi_mod_raw_write ciL m A output_length = Except.error MpiError.BufferTooSmall
      ↔ 256 ^ output_length ≤ natOfLimbsLE (256 ^ ciL) A) ∧
    (natOfLimbsLE (256 ^ ciL) A < 256 ^ output_length →
      mbedtls_mpi_mod_raw_write ciL m A output_length
          = Except.ok (bytesOfNatBE output_length (natOfLimbsLE (256 ^ ciL) A)) ∧
        natOfBytesBE (bytesOfNatBE output_length (natOfLimbsLE (256 ^ ciL) A))
          = natOfLimbsLE (256 ^ ciL) A) := by
  constructor
  · unfold mbedtls_mpi_mod_raw_write
    by_cases hcond : 256 ^ output_length ≤ natOfLimbsLE (256 ^ ciL) A
    · rw [if_pos hcond]
      simp [hcond]
    · rw [if_neg hcond, if_neg (not_not_intro hm)]
      simp [hcond]
  · intro hfit
    constructor
    · unfold mbedtls_mpi_mod_raw_write
      rw [if_neg (Nat.not_le.mpr hfit), if_neg (not_not_intro hm)]
    · exact natOfBytesBE_bytesOfNatBE _ _ hfit

/-- Witness for C7's amended statement: for N = 97 a buffer capacity
request of 0 bytes on exporting the value 23 fails with `BufferTooSmall`. -/
theorem write_buffer_too_small_witness :
    modulus_valid 1 mod97 ∧
    mbedtls_mpi_mod_raw_write 1 mod97 [23] 0 = Except.error MpiError.BufferTooSmall :=
  ⟨by decide, (write_buffer_too_small_iff 1 mod97 [23] 0 (by decide)).1.mpr (by decide)⟩

/-- C7 counterexample: for the two-limb modulus N = 257 (byte width 2) and
the small stored value 5, a one-byte output buffer cannot represent the
modulus's full byte width, yet the export succeeds with `[0x05]` instead of
failing with `BufferTooSmall` — the header ties the capacity check to the
value of `A`, not to the modulus's width. -/
theorem write_modulus_width_cex :
    modulus_valid 1 mod257 ∧ (1 : Nat) < mod257.p.length * 1 ∧
    mbedtls_mpi_mod_raw_write 1 mod257 [5, 0] 1 = Except.ok [5] := by
  decide

/-- C8: the representation converters fail with `InternalInvariantViolated`
exactly when the descriptor lacks valid Montgomery constants; with valid
constants each returns success (0) with the converted value in place. -/
theorem mont_rep_converters_validity (ciL : Nat) (m : mbedtls_mpi_mod_modulus) (X : List Nat) :
    (mbedtls_mpi_mod_raw_to_mont_rep ciL m X = Except.error MpiError.InternalInvariantViolated
      ↔ ¬ montgomery_valid ciL m) ∧
    (mbedtls_mpi_mod_raw_from_mont_rep ciL m X = Except.error MpiError.InternalInvariantViolated
      ↔ ¬ montgomery_valid ciL m) ∧
    (mbedtls_mpi_mod_raw_to_mont_rep ciL m X = Except.ok (montgomery_mul ciL m X m.rr)
      ↔ montgomery_valid ciL m) ∧
    (mbedtls_mpi_mod_raw_from_mont_rep ciL m X
        = Except.ok (natToLimbsLE (256 ^ ciL) m.p.length
            (mont_redc (256 ^ ciL) (natOfLimbsLE (256 ^ ciL) m.p) m.mm m.p.length
              (natOfLimbsLE (256 ^ ciL) X)))
      ↔ montgomery_valid ciL m) := by
  unfold mbedtls_mpi_mod_raw_to_mont_rep mbedtls_mpi_mod_raw_from_mont_rep
  by_cases hm : montgomery_valid ciL m
  · simp [hm]
  · simp [hm]

/-- C9: constant-time shape — for a fixed modulus and fixed operand
lengths, the instrumented sequence of primitive limb operations (multiply,
add, subtract, compare) is identical across runs on different operand
values, for each of the Montgomery operations. -/
theorem constant_time_trace (ciL : Nat) (m : mbedtls_mpi_mod_modulus)
    (X Y X2 Y2 : List Nat) (_hXY : X.length = Y.length) (_hX2Y2 : X2.length = Y2.length) :
    from_mont_trace ciL m X = from_mont_trace ciL m Y ∧
    to_mont_trace ciL m X = to_mont_trace ciL m Y ∧
    mont_mul_trace ciL m X X2 = mont_mul_trace ciL m Y Y2 := by
  unfold from_mont_trace to_mont_trace mont_mul_trace
  simp only [mont_redc_traced_snd]
  exact ⟨trivial, trivial, trivial⟩

/-- Witness for C9: two runs of `from_mont_rep` on the distinct one-limb
values 5 and 23 execute the same primitive-operation sequence. -/
theorem constant_time_trace_witness :
    ([(5 : Nat)] : List Nat).length = ([(23 : Nat)] : List Nat).length ∧
    from_mont_trace 4 mod97m [5] = from_mont_trace 4 mod97m [23] :=
  ⟨by decide, (constant_time_trace 4 mod97m [5] [23] [7] [11] (by decide) (by decide)).1⟩

/-- C10: the export operation never validates the exported value against
the modulus — any value, also one at least as large as the modulus, is
serialized successfully into a sufficiently large buffer rather than
rejected with `InvalidModulusOrValue`. -/
theorem write_no_range_check (ciL : Nat) (m : mbedtls_mpi_mod_modulus)
    (A : List Nat) (output_length : Nat) (hm : modulus_valid ciL m)
    (_hge : natOfLimbsLE (256 ^ ciL) m.p ≤ natOfLimbsLE (256 ^ ciL) A)
    (hfit : natOfLimbsLE (256 ^ ciL) A < 256 ^ output_length) :
    mbedtls_mpi_mod_raw_write ciL m A output_length
      = Except.ok (bytesOfNatBE output_length (natOfLimbsLE (256 ^ ciL) A)) := by
  unfold mbedtls_mpi_mod_raw_write
  rw [if_neg (Nat.not_le.mpr hfit), if_neg (not_not_intro hm)]

/-- Witness for C10: the out-of-range value 98 ≥ 97 exports successfully
under the modulus N = 97. -/
theorem write_no_range_check_witness :
    (modulus_valid 1 mod97 ∧ natOfLimbsLE (256 ^ 1) mod97.p ≤ natOfLimbsLE (256 ^ 1) [98]
      ∧ natOfLimbsLE (256 ^ 1) [98] < 256 ^ 1) ∧
    mbedtls_mpi_mod_raw_write 1 mod97 [98] 1
      = Except.ok (bytesOfNatBE 1 (natOfLimbsLE (256 ^ 1) [98])) :=
  ⟨⟨by decide, by decide, by decide⟩,
   write_no_range_check 1 mod97 [98] 1 (by decide) (by decide) (by decide)⟩

end BignumModRaw
